import Mathlib

/-!
pgcrfind: the bisection search `findID` of `main.go`

A shallow embedding of `findID` (main.go, lines 127-187) together with the
types it touches, followed by the properties proved about it.

Modelling choices:

* Go `int64` values are `Int`; every arithmetic result of the source is passed
  through `wrapInt64`, the two's-complement wrap-around, and `/` of the source
  is `Int.tdiv` (truncation towards zero).
* A `time.Time` is the instant it denotes; `Equal` and `Before` compare
  instants.
* A Go pointer is an `Option`: `none` is the nil pointer. Dereferencing nil is
  the outcome `Outcome.panicked`.
* The map `recordByID` is a function from identifiers to `Option (Option PGCR)`:
  the outer `none` is a missing key, `some none` a key bound to a nil pointer.
* `loadPGCR` talks to a remote service. It is a parameter of the embedding:
  `loadPGCR k id` is what the `k`-th invocation (counted from `0` over the
  whole process) returns when asked for `id`. A deterministic service is a
  function that ignores `k`.
* The unbounded `for` loop is unfolded a given number of iterations by
  `findIDLoop`; the outcome `Outcome.running` says that the loop has not left
  after that many iterations.
* The `fmt.Printf` calls are not modelled.
-/

namespace PGCRFind

/-! ## Data model -/

/-- `math.MaxInt64`. -/
def maxInt64 : Int := 9223372036854775807

/-- Two's-complement wrap-around of an `int64` result. -/
def wrapInt64 (x : Int) : Int :=
  (x + 9223372036854775808) % 18446744073709551616 - 9223372036854775808

/-- `type PGCRTimestamp time.Time` (main.go, line 33), as the instant in time
it denotes. -/
structure PGCRTimestamp where
  instant : Int
deriving DecidableEq, Repr

/-- `func (t PGCRTimestamp) Equals` (main.go, lines 34-36). -/
def PGCRTimestamp.Equals (t other : PGCRTimestamp) : Bool :=
  decide (t.instant = other.instant)

/-- `func (t PGCRTimestamp) Before` (main.go, lines 48-50). -/
def PGCRTimestamp.Before (t other : PGCRTimestamp) : Bool :=
  decide (t.instant < other.instant)

/-- `type ActivityDetails struct` (main.go, lines 29-31). -/
structure ActivityDetails where
  instanceID : String
deriving DecidableEq, Repr

/-- `type PGCR struct` (main.go, lines 22-27); `period` is
`Response.Period`, a pointer, and `activityDetails` is
`Response.ActivityDetails`, a pointer. -/
structure PGCR where
  period : Option PGCRTimestamp
  activityDetails : Option ActivityDetails
deriving DecidableEq, Repr

/-- The three shapes of the pair `(*PGCR, error)` that `loadPGCR`
(main.go, lines 189-214) returns. -/
inductive LoadResult where
  /-- `return &p, nil` (line 213). -/
  | found (p : PGCR)
  /-- `return nil, nil` (line 198), status 404. -/
  | absent
  /-- `return nil, err` (lines 196, 200, 206, 210). -/
  | error
deriving DecidableEq, Repr

/-- The remote service behind `loadPGCR`: the answer of invocation number `k`
for identifier `id`. -/
abbrev Loader := Nat → Int → LoadResult

/-- `recordByID map[int64]*PGCR` (main.go, line 19). -/
abbrev Cache := Int → Option (Option PGCR)

/-- `make(map[int64]*PGCR)` (main.go, line 58). -/
def emptyCache : Cache := fun _ => none

/-- `recordByID[id] = p`. -/
def Cache.store (c : Cache) (id : Int) (p : Option PGCR) : Cache :=
  fun k => if k = id then some p else c k

/-- The variables that live across iterations of the loop of `findID`,
together with the package variable `recordByID` and the log `calls` of the
invocations of `loadPGCR` made so far (most recent first). -/
structure SearchState where
  bottom : Int
  top : Int
  recordByID : Cache
  calls : List (Int × LoadResult)

/-- What one pass through the loop body, or the whole loop, has come to. -/
inductive Outcome where
  /-- The loop goes on (`continue`, or the end of the body). -/
  | running (s : SearchState)
  /-- `findID` returns `(rec, exact)`. -/
  | returned (rec : PGCR) (exact : Bool) (s : SearchState)
  /-- `current.Response.Period` is nil at line 164: a run-time panic. -/
  | panicked (s : SearchState)

/-- The state an outcome carries. -/
def Outcome.state : Outcome → SearchState
  | .running s => s
  | .returned _ _ s => s
  | .panicked s => s

/-- The pair `findID` has returned, if it has. -/
def Outcome.result : Outcome → Option (PGCR × Bool)
  | .returned rec exact _ => some (rec, exact)
  | _ => none

/-- Whether the loop is still going. -/
def Outcome.isRunning : Outcome → Bool
  | .running _ => true
  | _ => false

/-! ## The loop of `findID` -/

/-- `difference := top - bottom` (line 138). -/
def difference (s : SearchState) : Int := wrapInt64 (s.top - s.bottom)

/-- `increment` after lines 139-142. -/
def increment (s : SearchState) : Int :=
  if Int.tdiv (difference s) 2 = 0 then 1 else Int.tdiv (difference s) 2

/-- `currentID = bottom + increment` (line 144). -/
def currentID (s : SearchState) : Int := wrapInt64 (s.bottom + increment s)

/-- What lines 146-155 leave behind. -/
inductive Lookup where
  /-- `err != nil`: `continue` at line 153. -/
  | failed (s : SearchState)
  /-- `current` is set, from the cache or from `loadPGCR`. -/
  | current (p : Option PGCR) (s : SearchState)

/-- The state once `loadPGCR(currentID)` has been invoked (line 150): the
invocation and its answer are logged. -/
def logged (loadPGCR : Loader) (s : SearchState) : SearchState :=
  { s with calls := (currentID s, loadPGCR s.calls.length (currentID s)) :: s.calls }

/-- Lines 146-155: the cache is asked first, `loadPGCR` on a miss only. -/
def lookup (loadPGCR : Loader) (s : SearchState) : Lookup :=
  match s.recordByID (currentID s) with
  | some fromCache => .current fromCache s
  | none =>
    match loadPGCR s.calls.length (currentID s) with
    | .error => .failed (logged loadPGCR s)
    | .absent => .current none (logged loadPGCR s)
    | .found p => .current (some p) (logged loadPGCR s)

/-- Lines 157-179, with `current` in hand. -/
def examine (needle : PGCRTimestamp) (s : SearchState) (current : Option PGCR) : Outcome :=
  match current with
  | none => .running { s with top := currentID s }
  | some rec =>
    let s1 := { s with recordByID := s.recordByID.store (currentID s) (some rec) }
    match rec.period with
    | none => .panicked s1
    | some period =>
      if period.Equals needle then .returned rec true s1
      else if period.Before needle then
        if s.bottom = currentID s ∨ difference s = 1 then .returned rec false s1
        else .running { s1 with bottom := currentID s }
      else
        if s.top = currentID s ∨ difference s = 1 then .returned rec false s1
        else .running { s1 with top := currentID s }

/-- One pass through the body of the `for` loop (lines 136-180). -/
def iteration (loadPGCR : Loader) (needle : PGCRTimestamp) (s : SearchState) : Outcome :=
  match lookup loadPGCR s with
  | .failed s1 => .running s1
  | .current p s1 => examine needle s1 p

/-- The `for` loop, unfolded `n` times. -/
def findIDLoop (loadPGCR : Loader) (needle : PGCRTimestamp) : Nat → SearchState → Outcome
  | 0, s => .running s
  | n + 1, s =>
    match iteration loadPGCR needle s with
    | .running s1 => findIDLoop loadPGCR needle n s1
    | out => out

/-- The state in which `findID` enters its loop (lines 128-129), given the
cache and the log of earlier invocations of `loadPGCR`. -/
def entry (recordByID : Cache) (calls : List (Int × LoadResult)) : SearchState :=
  { bottom := 1, top := maxInt64, recordByID := recordByID, calls := calls }

/-- `findID(needle)` run for at most `n` iterations of its loop. -/
def findID (loadPGCR : Loader) (needle : PGCRTimestamp) (recordByID : Cache)
    (calls : List (Int × LoadResult)) (n : Nat) : Outcome :=
  findIDLoop loadPGCR needle n (entry recordByID calls)

/-! ## Auxiliary notions used in the statements -/

/-- The bounds `1 ≤ bottom < top ≤ math.MaxInt64` on the search interval. -/
def InRange (s : SearchState) : Prop :=
  1 ≤ s.bottom ∧ s.bottom < s.top ∧ s.top ≤ maxInt64

/-- Whether the identifier probed in state `s` resolves to a record: a cache
hit on a non-nil pointer, or a miss on which `loadPGCR` finds a record. -/
def resolves (loadPGCR : Loader) (s : SearchState) : Bool :=
  match lookup loadPGCR s with
  | .current (some _) _ => true
  | _ => false

/-- The number of iterations, among the first `n` of the loop started in `s`,
in which the probed identifier resolves to a record. -/
def resolutions (loadPGCR : Loader) (needle : PGCRTimestamp) : Nat → SearchState → Nat
  | 0, _ => 0
  | n + 1, s =>
    (if resolves loadPGCR s then 1 else 0) +
      match iteration loadPGCR needle s with
      | .running s1 => resolutions loadPGCR needle n s1
      | _ => 0

/-- Successive calls of `findID` on the shared `recordByID`: each call is
given by its needle and by the number of loop iterations it is followed for;
the cache and the log of `loadPGCR` invocations it leaves are handed to the
next call. -/
def session (loadPGCR : Loader) :
    List (PGCRTimestamp × Nat) → Cache → List (Int × LoadResult) → Cache × List (Int × LoadResult)
  | [], c, l => (c, l)
  | (needle, n) :: rest, c, l =>
    session loadPGCR rest (findID loadPGCR needle c l n).state.recordByID
      (findID loadPGCR needle c l n).state.calls

/-- Whether a logged invocation of `loadPGCR` was for `id` and found a record. -/
def isFoundFor (id : Int) (call : Int × LoadResult) : Bool :=
  match call.2 with
  | .found _ => decide (call.1 = id)
  | _ => false

/-- A cache holding only records: no key is bound to a nil pointer. -/
def OnlyRecords (c : Cache) : Prop := ∀ id p, c id = some p → p ≠ none

/-- Every record of the cache has its `Response.Period` set. -/
def HasPeriods (c : Cache) : Prop := ∀ id r, c id = some (some r) → r.period ≠ none

/-- The relation between the cache and log at one moment (`c`, `l`) and at a
later one (`c1`, `l1`): every binding of the cache is still there, unchanged,
the log has only grown, and no invocation of `loadPGCR` added to it was for an
identifier that `c` held. -/
def Extends (c : Cache) (l : List (Int × LoadResult)) (c1 : Cache)
    (l1 : List (Int × LoadResult)) : Prop :=
  (∀ id p, c id = some p → c1 id = some p) ∧
    ∃ newer, l1 = newer ++ l ∧ ∀ call ∈ newer, c call.1 = none

/-- Every record that an invocation of `loadPGCR` of the log found is in the
cache, and no identifier has two such invocations. -/
def FetchedOnce (c : Cache) (l : List (Int × LoadResult)) : Prop :=
  (∀ id r, (id, LoadResult.found r) ∈ l → c id = some (some r)) ∧
    ∀ id, (l.filter (isFoundFor id)).length ≤ 1

/-- Cache `c1` holds what `c` holds and, besides, only records that the
deterministic service `f` finds. -/
def Covers (f : Int → LoadResult) (c c1 : Cache) : Prop :=
  ∀ id, (∀ p, c id = some p → c1 id = some p) ∧
    (c id = none → c1 id = none ∨ ∃ r, f id = .found r ∧ c1 id = some (some r))

/-- Two outcomes that agree: both going on, with the same interval and
caches related by `Covers`; both returned, with the same pair; or both
panicked. -/
def Similar (f : Int → LoadResult) : Outcome → Outcome → Prop
  | .running s, .running s1 =>
    s.bottom = s1.bottom ∧ s.top = s1.top ∧ Covers f s.recordByID s1.recordByID
  | .returned r e _, .returned r1 e1 _ => r = r1 ∧ e = e1
  | .panicked _, .panicked _ => True
  | _, _ => False

/-- The loop state of a search for a target later than every record, below a
gap that starts after identifier `T`: `bottom ≤ T < top`, and the cache binds
only identifiers up to `T`, to records earlier than the target. -/
def BelowGap (T : Int) (needle : PGCRTimestamp) (s : SearchState) : Prop :=
  InRange s ∧ s.bottom ≤ T ∧ T < s.top ∧
    ∀ id p, s.recordByID id = some p →
      id ≤ T ∧ ∃ r t, p = some r ∧ r.period = some t ∧ t.Before needle = true

/-! ## Test fixture of the specification's scenarios -/

/-- The timestamp `t(i) = baseTime + i minutes` of the scenarios, in seconds. -/
def fixtureTime (i : Int) : PGCRTimestamp := { instant := 1500000000 + 60 * i }

/-- The record of identifier `i` in the scenarios. -/
def fixtureRecord (i : Int) : PGCR :=
  { period := some (fixtureTime i), activityDetails := some { instanceID := "fixture" } }

/-- What the service of the scenarios answers for `id`: the record for each
identifier `1..N` (`return &p, nil`), status 404 (`return nil, nil`) for
every other one, never an error. -/
def fixtureAnswer (N : Int) (id : Int) : LoadResult :=
  if 1 ≤ id ∧ id ≤ N then .found (fixtureRecord id) else .absent

/-- The service of the scenarios, answering the same at every invocation. -/
def fixtureService (N : Int) : Loader := fun _ => fixtureAnswer N

/-- The target of the gap scenario: `t(1000) + 1 hour`. -/
def lateTarget : PGCRTimestamp := { instant := 1500000000 + 60 * 1000 + 3600 }

/-- A target `30` seconds before `t(1)`, the timestamp of the first record. -/
def earlyTarget : PGCRTimestamp := { instant := 1500000000 + 30 }

/-- A service that has a record with one and the same timestamp, instant `0`,
for every identifier. -/
def constantService : Loader :=
  fun _ _ => .found { period := some { instant := 0 }, activityDetails := none }

/-- A service that fails on every invocation (`return nil, err`). -/
def failingService : Loader := fun _ _ => .error

/-- The loop state of the first scenario (target `t(500)`) after two
iterations. -/
def scenarioState : SearchState :=
  (findID (fixtureService 1000) (fixtureTime 500) emptyCache [] 2).state

/-! ## Arithmetic of the midpoint -/

theorem difference_eq {s : SearchState} (h : InRange s) :
    difference s = s.top - s.bottom := by
  unfold InRange maxInt64 at h
  unfold difference wrapInt64
  omega

theorem increment_eq {s : SearchState} (h : InRange s) :
    increment s = if s.top - s.bottom = 1 then 1 else (s.top - s.bottom) / 2 := by
  have hd := difference_eq h
  unfold InRange at h
  unfold increment
  rw [hd, Int.tdiv_eq_ediv (by omega) (by omega)]
  split <;> split <;> omega

theorem currentID_eq {s : SearchState} (h : InRange s) :
    currentID s = s.bottom + increment s := by
  have hi := increment_eq h
  unfold InRange maxInt64 at h
  unfold currentID wrapInt64
  rw [hi]
  split <;> omega

theorem currentID_bounds {s : SearchState} (h : InRange s) :
    s.bottom < currentID s ∧ currentID s ≤ s.top ∧
      (currentID s = s.top ↔ s.top - s.bottom = 1) ∧
      (s.top - s.bottom ≠ 1 →
        currentID s - s.bottom ≤ (s.top - s.bottom + 1) / 2 ∧
        s.top - currentID s ≤ (s.top - s.bottom + 1) / 2) := by
  rw [currentID_eq h, increment_eq h]
  unfold InRange at h
  split <;> omega

/-! ## One pass through the loop body -/

theorem currentID_logged (loadPGCR : Loader) (s : SearchState) :
    currentID (logged loadPGCR s) = currentID s := rfl

theorem difference_logged (loadPGCR : Loader) (s : SearchState) :
    difference (logged loadPGCR s) = difference s := rfl

theorem lookup_cases (loadPGCR : Loader) (s : SearchState) :
    (∃ p, s.recordByID (currentID s) = some p ∧ lookup loadPGCR s = .current p s) ∨
    (s.recordByID (currentID s) = none ∧
      ((loadPGCR s.calls.length (currentID s) = .error ∧
          lookup loadPGCR s = .failed (logged loadPGCR s)) ∨
       (loadPGCR s.calls.length (currentID s) = .absent ∧
          lookup loadPGCR s = .current none (logged loadPGCR s)) ∨
       (∃ r, loadPGCR s.calls.length (currentID s) = .found r ∧
          lookup loadPGCR s = .current (some r) (logged loadPGCR s)))) := by
  unfold lookup
  cases hc : s.recordByID (currentID s) with
  | some p => exact Or.inl ⟨p, rfl, rfl⟩
  | none =>
    refine Or.inr ⟨rfl, ?_⟩
    cases hl : loadPGCR s.calls.length (currentID s) with
    | error => exact Or.inl ⟨rfl, rfl⟩
    | absent => exact Or.inr (Or.inl ⟨rfl, rfl⟩)
    | found r => exact Or.inr (Or.inr ⟨r, rfl, rfl⟩)

/-- The state handed on by `lookup` differs from `s` in the log only. -/
theorem lookup_state (loadPGCR : Loader) (s : SearchState) :
    (∃ p, lookup loadPGCR s = .current p s) ∨
    (s.recordByID (currentID s) = none ∧
      (lookup loadPGCR s = .failed (logged loadPGCR s) ∨
       ∃ p, lookup loadPGCR s = .current p (logged loadPGCR s))) := by
  rcases lookup_cases loadPGCR s with ⟨p, _, h⟩ | ⟨hn, ⟨_, h⟩ | ⟨_, h⟩ | ⟨r, _, h⟩⟩
  · exact Or.inl ⟨p, h⟩
  · exact Or.inr ⟨hn, Or.inl h⟩
  · exact Or.inr ⟨hn, Or.inr ⟨_, h⟩⟩
  · exact Or.inr ⟨hn, Or.inr ⟨_, h⟩⟩

/-- What `examine` does to the interval and to the cache when the loop goes
on after it. -/
theorem examine_running {needle : PGCRTimestamp} {s s1 : SearchState} {p : Option PGCR}
    (h : examine needle s p = .running s1) :
    s1.calls = s.calls ∧
    ((p = none ∧ s1.bottom = s.bottom ∧ s1.top = currentID s ∧
        s1.recordByID = s.recordByID) ∨
     (∃ rec, p = some rec ∧ difference s ≠ 1 ∧
        s1.recordByID = s.recordByID.store (currentID s) (some rec) ∧
        ((s1.bottom = s.bottom ∧ s1.top = currentID s ∧ s.top ≠ currentID s) ∨
         (s1.bottom = currentID s ∧ s1.top = s.top ∧ s.bottom ≠ currentID s)))) := by
  unfold examine at h
  cases p with
  | none =>
    simp only [Outcome.running.injEq] at h
    subst h
    exact ⟨rfl, Or.inl ⟨rfl, rfl, rfl, rfl⟩⟩
  | some rec =>
    simp only at h
    split at h
    · exact absurd h (by simp)
    · split at h
      · exact absurd h (by simp)
      · split at h
        · split at h
          · exact absurd h (by simp)
          · rename_i hcond
            simp only [Outcome.running.injEq] at h
            subst h
            exact ⟨rfl, Or.inr ⟨rec, rfl, fun hd => hcond (Or.inr hd), rfl,
              Or.inr ⟨rfl, rfl, fun hb => hcond (Or.inl hb)⟩⟩⟩
        · split at h
          · exact absurd h (by simp)
          · rename_i hcond
            simp only [Outcome.running.injEq] at h
            subst h
            exact ⟨rfl, Or.inr ⟨rec, rfl, fun hd => hcond (Or.inr hd), rfl,
              Or.inl ⟨rfl, rfl, fun hb => hcond (Or.inl hb)⟩⟩⟩

/-- The two ways in which an iteration hands over to the next one: without a
record (error, status 404, nil pointer in the cache), where only `top` may
move, and with a record, where the interval is at least `2` wide and one of
its ends moves to `currentID`. -/
theorem iteration_running {loadPGCR : Loader} {needle : PGCRTimestamp} {s s1 : SearchState}
    (h : iteration loadPGCR needle s = .running s1) :
    (resolves loadPGCR s = false ∧ s1.bottom = s.bottom ∧
        (s1.top = s.top ∨ s1.top = currentID s) ∧ s1.recordByID = s.recordByID) ∨
    (resolves loadPGCR s = true ∧ difference s ≠ 1 ∧
        (∃ rec s0, lookup loadPGCR s = .current (some rec) s0 ∧
          s1.recordByID = s.recordByID.store (currentID s) (some rec)) ∧
        ((s1.bottom = s.bottom ∧ s1.top = currentID s ∧ s.top ≠ currentID s) ∨
         (s1.bottom = currentID s ∧ s1.top = s.top ∧ s.bottom ≠ currentID s))) := by
  unfold iteration at h
  rcases lookup_cases loadPGCR s with ⟨p, _, hl⟩ | ⟨_, ⟨_, hl⟩ | ⟨_, hl⟩ | ⟨r, _, hl⟩⟩
  · rw [hl] at h
    simp only at h
    obtain ⟨_, hp | ⟨rec, hp, hd, hc, hi⟩⟩ := examine_running h
    · obtain ⟨hp, hb, ht, hc⟩ := hp
      subst hp
      exact Or.inl ⟨by unfold resolves; rw [hl], hb, Or.inr ht, hc⟩
    · subst hp
      exact Or.inr ⟨by unfold resolves; rw [hl], hd, ⟨rec, s, hl, hc⟩, hi⟩
  · rw [hl] at h
    simp only [Outcome.running.injEq] at h
    subst h
    exact Or.inl ⟨by unfold resolves; rw [hl], rfl, Or.inl rfl, rfl⟩
  · rw [hl] at h
    simp only at h
    obtain ⟨_, hp | ⟨rec, hp, _⟩⟩ := examine_running h
    · obtain ⟨_, hb, ht, hc⟩ := hp
      exact Or.inl ⟨by unfold resolves; rw [hl], hb, Or.inr ht, hc⟩
    · exact absurd hp (by simp)
  · rw [hl] at h
    simp only at h
    obtain ⟨_, hp | ⟨rec, hp, hd, hc, hi⟩⟩ := examine_running h
    · exact absurd hp.1 (by simp)
    · simp only [Option.some.injEq] at hp
      subst hp
      exact Or.inr ⟨by unfold resolves; rw [hl], hd, ⟨r, _, hl, hc⟩, hi⟩

/-- An iteration that leaves the loop has examined a record. -/
theorem resolves_of_not_running {loadPGCR : Loader} {needle : PGCRTimestamp} {s : SearchState}
    (h : (iteration loadPGCR needle s).isRunning = false) : resolves loadPGCR s = true := by
  unfold iteration at h
  unfold resolves
  rcases lookup_cases loadPGCR s with ⟨p, _, hl⟩ | ⟨_, ⟨_, hl⟩ | ⟨_, hl⟩ | ⟨r, _, hl⟩⟩
  · rw [hl] at h ⊢
    cases p with
    | none => simp [examine, Outcome.isRunning] at h
    | some rec => rfl
  · rw [hl] at h
    simp [Outcome.isRunning] at h
  · rw [hl] at h
    simp [examine, Outcome.isRunning] at h
  · rw [hl]

/-- The bounds on the interval are kept by an iteration, the width never
grows, and it is at most halved (rounding up) when a record was examined. -/
theorem inRange_iteration {loadPGCR : Loader} {needle : PGCRTimestamp} {s s1 : SearchState}
    (hs : InRange s) (h : iteration loadPGCR needle s = .running s1) :
    InRange s1 ∧ s1.top - s1.bottom ≤ s.top - s.bottom ∧
      (resolves loadPGCR s = true →
        s.top - s.bottom ≠ 1 ∧ s1.top - s1.bottom ≤ (s.top - s.bottom + 1) / 2) := by
  have hb := currentID_bounds hs
  have hd := difference_eq hs
  unfold InRange at hs ⊢
  rcases iteration_running h with ⟨hr, h1, h2, _⟩ | ⟨_, hne, _, h2⟩
  · rw [hr]
    rcases h2 with h2 | h2 <;> simp <;> omega
  · rw [hd] at hne
    rcases h2 with ⟨h1, h2, _⟩ | ⟨h1, h2, _⟩ <;> omega

theorem inRange_entry (c : Cache) (l : List (Int × LoadResult)) : InRange (entry c l) := by
  unfold InRange entry maxInt64
  simp

theorem findIDLoop_inRange {loadPGCR : Loader} {needle : PGCRTimestamp} :
    ∀ (n : Nat) {s s1 : SearchState}, InRange s →
      findIDLoop loadPGCR needle n s = .running s1 → InRange s1 := by
  intro n
  induction n with
  | zero =>
    intro s s1 hs h
    simp only [findIDLoop, Outcome.running.injEq] at h
    exact h ▸ hs
  | succ n ih =>
    intro s s1 hs h
    unfold findIDLoop at h
    cases hit : iteration loadPGCR needle s with
    | running s2 =>
      rw [hit] at h
      exact ih (inRange_iteration hs hit).1 h
    | returned r e s2 => rw [hit] at h; exact absurd h (by simp)
    | panicked s2 => rw [hit] at h; exact absurd h (by simp)

/-! ## Counting the iterations -/

/-- While the interval is at most `2 ^ k` wide, at most `k + 1` more
iterations examine a record. -/
theorem resolutions_le {loadPGCR : Loader} {needle : PGCRTimestamp} :
    ∀ (n k : Nat) (s : SearchState), InRange s → s.top - s.bottom ≤ 2 ^ k →
      resolutions loadPGCR needle n s ≤ k + 1 := by
  intro n
  induction n with
  | zero => intro k s _ _; simp [resolutions]
  | succ n ih =>
    intro k s hs hw
    unfold resolutions
    cases hit : iteration loadPGCR needle s with
    | running s1 =>
      obtain ⟨hs1, hle, hres⟩ := inRange_iteration hs hit
      simp only
      by_cases hr : resolves loadPGCR s = true
      · obtain ⟨hne, hhalf⟩ := hres hr
        rw [if_pos hr]
        cases k with
        | zero =>
          unfold InRange at hs
          simp only [pow_zero] at hw
          omega
        | succ j =>
          have hj : s1.top - s1.bottom ≤ 2 ^ j := by
            rw [pow_succ] at hw
            omega
          have := ih j s1 hs1 hj
          omega
      · rw [if_neg hr]
        have := ih k s1 hs1 (le_trans hle hw)
        omega
    | returned r e s1 => simp only; split <;> omega
    | panicked s1 => simp only; split <;> omega

theorem lookup_current_some {loadPGCR : Loader} {s s0 : SearchState} {rec : PGCR}
    (h : lookup loadPGCR s = .current (some rec) s0) :
    s.recordByID (currentID s) = some (some rec) ∨
      loadPGCR s.calls.length (currentID s) = .found rec := by
  rcases lookup_cases loadPGCR s with ⟨p, hp, hl⟩ | ⟨_, ⟨_, hl⟩ | ⟨_, hl⟩ | ⟨r, hr, hl⟩⟩
  · rw [hl] at h
    simp only [Lookup.current.injEq] at h
    rw [h.1] at hp
    exact Or.inl hp
  · rw [hl] at h
    exact absurd h (by simp)
  · rw [hl] at h
    simp only [Lookup.current.injEq] at h
    exact absurd h.1 (by simp)
  · rw [hl] at h
    simp only [Lookup.current.injEq, Option.some.injEq] at h
    rw [h.1] at hr
    exact Or.inr hr

/-- With a record behind every identifier of `1..MaxInt64` and no nil pointer
in the cache, every probe examines a record. -/
theorem resolves_of_found {loadPGCR : Loader} {s : SearchState}
    (hfound : ∀ k i, 1 ≤ i → i ≤ maxInt64 → ∃ r, loadPGCR k i = .found r)
    (hs : InRange s) (hc : OnlyRecords s.recordByID) : resolves loadPGCR s = true := by
  have hb := currentID_bounds hs
  unfold InRange at hs
  unfold resolves
  rcases lookup_cases loadPGCR s with ⟨p, hp, hl⟩ | ⟨_, ⟨he, _⟩ | ⟨ha, _⟩ | ⟨r, _, hl⟩⟩
  · rw [hl]
    cases p with
    | none => exact absurd rfl (hc _ _ hp)
    | some r => rfl
  · obtain ⟨r, hr⟩ := hfound s.calls.length (currentID s) (by omega) (by omega)
    rw [hr] at he
    exact absurd he (by simp)
  · obtain ⟨r, hr⟩ := hfound s.calls.length (currentID s) (by omega) (by omega)
    rw [hr] at ha
    exact absurd ha (by simp)
  · rw [hl]

theorem onlyRecords_store {c : Cache} (hc : OnlyRecords c) (id : Int) (rec : PGCR) :
    OnlyRecords (c.store id (some rec)) := by
  intro k p hk
  unfold Cache.store at hk
  split at hk
  · simp only [Option.some.injEq] at hk
    subst hk
    simp
  · exact hc k p hk

theorem onlyRecords_iteration {loadPGCR : Loader} {needle : PGCRTimestamp}
    {s s1 : SearchState} (hc : OnlyRecords s.recordByID)
    (h : iteration loadPGCR needle s = .running s1) : OnlyRecords s1.recordByID := by
  rcases iteration_running h with ⟨_, _, _, he⟩ | ⟨_, _, ⟨rec, _, _, he⟩, _⟩
  · rw [he]; exact hc
  · rw [he]; exact onlyRecords_store hc _ _

theorem findIDLoop_onlyRecords {loadPGCR : Loader} {needle : PGCRTimestamp} :
    ∀ (n : Nat) {s s1 : SearchState}, OnlyRecords s.recordByID →
      findIDLoop loadPGCR needle n s = .running s1 → OnlyRecords s1.recordByID := by
  intro n
  induction n with
  | zero =>
    intro s s1 hs h
    simp only [findIDLoop, Outcome.running.injEq] at h
    exact h ▸ hs
  | succ n ih =>
    intro s s1 hs h
    unfold findIDLoop at h
    cases hit : iteration loadPGCR needle s with
    | running s2 =>
      rw [hit] at h
      exact ih (onlyRecords_iteration hs hit) h
    | returned r e s2 => rw [hit] at h; exact absurd h (by simp)
    | panicked s2 => rw [hit] at h; exact absurd h (by simp)

/-- With a record behind every identifier and no nil pointer in the cache, an
interval at most `2 ^ k` wide is left within `k + 1` iterations. -/
theorem findIDLoop_leaves {loadPGCR : Loader} {needle : PGCRTimestamp}
    (hfound : ∀ k i, 1 ≤ i → i ≤ maxInt64 → ∃ r, loadPGCR k i = .found r) :
    ∀ (k n : Nat) (s : SearchState), InRange s → OnlyRecords s.recordByID →
      s.top - s.bottom ≤ 2 ^ k → k + 1 ≤ n →
      (findIDLoop loadPGCR needle n s).isRunning = false := by
  intro k
  induction k with
  | zero =>
    intro n s hs hc hw hn
    obtain ⟨m, rfl⟩ : ∃ m, n = m + 1 := ⟨n - 1, by omega⟩
    unfold findIDLoop
    cases hit : iteration loadPGCR needle s with
    | running s1 =>
      have := (inRange_iteration hs hit).2.2 (resolves_of_found hfound hs hc)
      unfold InRange at hs
      simp only [pow_zero] at hw
      omega
    | returned r e s1 => rfl
    | panicked s1 => rfl
  | succ j ih =>
    intro n s hs hc hw hn
    obtain ⟨m, rfl⟩ : ∃ m, n = m + 1 := ⟨n - 1, by omega⟩
    unfold findIDLoop
    cases hit : iteration loadPGCR needle s with
    | running s1 =>
      obtain ⟨hs1, _, hres⟩ := inRange_iteration hs hit
      obtain ⟨_, hhalf⟩ := hres (resolves_of_found hfound hs hc)
      have hj : s1.top - s1.bottom ≤ 2 ^ j := by
        rw [pow_succ] at hw
        omega
      exact ih m s1 hs1 (onlyRecords_iteration hc hit) hj (by omega)
    | returned r e s1 => rfl
    | panicked s1 => rfl

/-! ## No nil `Period` -/

theorem examine_panicked {needle : PGCRTimestamp} {s s1 : SearchState} {p : Option PGCR}
    (h : examine needle s p = .panicked s1) : ∃ rec, p = some rec ∧ rec.period = none := by
  unfold examine at h
  cases p with
  | none => exact absurd h (by simp)
  | some rec =>
    refine ⟨rec, rfl, ?_⟩
    simp only at h
    cases hp : rec.period with
    | none => rfl
    | some t =>
      exfalso
      rw [hp] at h
      simp only at h
      split at h
      · exact absurd h (by simp)
      · split at h <;> split at h <;> exact absurd h (by simp)

theorem iteration_panicked {loadPGCR : Loader} {needle : PGCRTimestamp} {s s1 : SearchState}
    (h : iteration loadPGCR needle s = .panicked s1) :
    ∃ rec s0, lookup loadPGCR s = .current (some rec) s0 ∧ rec.period = none := by
  unfold iteration at h
  cases hl : lookup loadPGCR s with
  | failed s0 => rw [hl] at h; exact absurd h (by simp)
  | current p s0 =>
    rw [hl] at h
    obtain ⟨rec, hp, hn⟩ := examine_panicked h
    exact ⟨rec, s0, by rw [hp], hn⟩

theorem period_of_lookup {loadPGCR : Loader} {s s0 : SearchState} {rec : PGCR}
    (hload : ∀ k i r, loadPGCR k i = .found r → r.period ≠ none)
    (hc : HasPeriods s.recordByID) (h : lookup loadPGCR s = .current (some rec) s0) :
    rec.period ≠ none := by
  rcases lookup_current_some h with h1 | h1
  · exact hc _ _ h1
  · exact hload _ _ _ h1

theorem hasPeriods_iteration {loadPGCR : Loader} {needle : PGCRTimestamp}
    {s s1 : SearchState} (hload : ∀ k i r, loadPGCR k i = .found r → r.period ≠ none)
    (hc : HasPeriods s.recordByID)
    (h : iteration loadPGCR needle s = .running s1) : HasPeriods s1.recordByID := by
  rcases iteration_running h with ⟨_, _, _, he⟩ | ⟨_, _, ⟨rec, s0, hl, he⟩, _⟩
  · rw [he]; exact hc
  · rw [he]
    intro id r hr
    unfold Cache.store at hr
    split at hr
    · simp only [Option.some.injEq] at hr
      subst hr
      exact period_of_lookup hload hc hl
    · exact hc id r hr

theorem findIDLoop_not_panicked {loadPGCR : Loader} {needle : PGCRTimestamp}
    (hload : ∀ k i r, loadPGCR k i = .found r → r.period ≠ none) :
    ∀ (n : Nat) (s s1 : SearchState), HasPeriods s.recordByID →
      findIDLoop loadPGCR needle n s ≠ .panicked s1 := by
  intro n
  induction n with
  | zero => intro s s1 _ h; simp [findIDLoop] at h
  | succ n ih =>
    intro s s1 hc h
    unfold findIDLoop at h
    cases hit : iteration loadPGCR needle s with
    | running s2 =>
      rw [hit] at h
      exact ih s2 s1 (hasPeriods_iteration hload hc hit) h
    | returned r e s2 => rw [hit] at h; exact absurd h (by simp)
    | panicked s2 =>
      obtain ⟨rec, s0, hl, hn⟩ := iteration_panicked hit
      exact period_of_lookup hload hc hl hn

theorem result_isSome_of_left {o : Outcome} (hr : o.isRunning = false)
    (hp : ∀ s, o ≠ .panicked s) : o.result.isSome = true := by
  cases o with
  | running s => simp [Outcome.isRunning] at hr
  | returned r e s => rfl
  | panicked s => exact absurd rfl (hp s)

/-! ## The cache and the log of invocations -/

theorem store_same {c : Cache} {id : Int} {p : Option PGCR} (h : c id = some p) :
    c.store id p = c := by
  funext k
  unfold Cache.store
  split
  · rename_i hk
    rw [hk, h]
  · rfl

theorem examine_state (needle : PGCRTimestamp) (s : SearchState) (p : Option PGCR) :
    (examine needle s p).state.calls = s.calls ∧
      (p = none → (examine needle s p).state.recordByID = s.recordByID) ∧
      (∀ rec, p = some rec →
        (examine needle s p).state.recordByID = s.recordByID.store (currentID s) (some rec)) := by
  unfold examine
  cases p with
  | none => exact ⟨rfl, fun _ => rfl, fun rec h => absurd h (by simp)⟩
  | some rec =>
    simp only
    refine ⟨?_, fun h => absurd h (by simp), ?_⟩
    · repeat' split
      all_goals rfl
    · intro r hr
      simp only [Option.some.injEq] at hr
      subst hr
      repeat' split
      all_goals rfl

/-- What an iteration, whichever way it ends, does to the cache and to the
log: on a cache hit nothing; on a miss the invocation is logged, and the
record is stored if one was found. -/
theorem iteration_state (loadPGCR : Loader) (needle : PGCRTimestamp) (s : SearchState) :
    (s.recordByID (currentID s) ≠ none ∧
      (iteration loadPGCR needle s).state.calls = s.calls ∧
      (iteration loadPGCR needle s).state.recordByID = s.recordByID) ∨
    (s.recordByID (currentID s) = none ∧
      (iteration loadPGCR needle s).state.calls =
        (currentID s, loadPGCR s.calls.length (currentID s)) :: s.calls ∧
      (((∀ r, loadPGCR s.calls.length (currentID s) ≠ .found r) ∧
          (iteration loadPGCR needle s).state.recordByID = s.recordByID) ∨
       (∃ r, loadPGCR s.calls.length (currentID s) = .found r ∧
          (iteration loadPGCR needle s).state.recordByID =
            s.recordByID.store (currentID s) (some r)))) := by
  unfold iteration
  rcases lookup_cases loadPGCR s with ⟨p, hp, hl⟩ | ⟨hn, ⟨he, hl⟩ | ⟨ha, hl⟩ | ⟨r, hr, hl⟩⟩
  · rw [hl]
    simp only
    obtain ⟨h1, h2, h3⟩ := examine_state needle s p
    refine Or.inl ⟨by rw [hp]; simp, h1, ?_⟩
    cases p with
    | none => exact h2 rfl
    | some rec => rw [h3 rec rfl]; exact store_same hp
  · rw [hl]
    exact Or.inr ⟨hn, rfl, Or.inl ⟨fun r h => by rw [he] at h; exact absurd h (by simp), rfl⟩⟩
  · rw [hl]
    simp only
    obtain ⟨h1, h2, _⟩ := examine_state needle (logged loadPGCR s) none
    exact Or.inr ⟨hn, h1, Or.inl ⟨fun r h => by rw [ha] at h; exact absurd h (by simp), h2 rfl⟩⟩
  · rw [hl]
    simp only
    obtain ⟨h1, _, h3⟩ := examine_state needle (logged loadPGCR s) (some r)
    exact Or.inr ⟨hn, h1, Or.inr ⟨r, hr, h3 r rfl⟩⟩

theorem extends_refl (c : Cache) (l : List (Int × LoadResult)) : Extends c l c l :=
  ⟨fun _ _ h => h, [], rfl, fun _ h => absurd h (by simp)⟩

theorem extends_trans {c c1 c2 : Cache} {l l1 l2 : List (Int × LoadResult)}
    (h1 : Extends c l c1 l1) (h2 : Extends c1 l1 c2 l2) : Extends c l c2 l2 := by
  obtain ⟨hc1, n1, hl1, hn1⟩ := h1
  obtain ⟨hc2, n2, hl2, hn2⟩ := h2
  refine ⟨fun id p h => hc2 id p (hc1 id p h), n2 ++ n1, by rw [hl2, hl1, List.append_assoc], ?_⟩
  intro call hcall
  rcases List.mem_append.mp hcall with hm | hm
  · cases hc : c call.1 with
    | none => rfl
    | some p =>
      have := hc1 _ _ hc
      rw [hn2 call hm] at this
      exact absurd this (by simp)
  · exact hn1 call hm

theorem store_other {c : Cache} {id k : Int} {p : Option PGCR} (h : k ≠ id) :
    c.store id p k = c k := by
  unfold Cache.store
  rw [if_neg h]

theorem store_self (c : Cache) (id : Int) (p : Option PGCR) : c.store id p id = some p := by
  unfold Cache.store
  rw [if_pos rfl]

theorem iteration_extends (loadPGCR : Loader) (needle : PGCRTimestamp) (s : SearchState) :
    Extends s.recordByID s.calls (iteration loadPGCR needle s).state.recordByID
      (iteration loadPGCR needle s).state.calls := by
  rcases iteration_state loadPGCR needle s with ⟨_, h1, h2⟩ | ⟨hn, h1, ⟨_, h2⟩ | ⟨r, _, h2⟩⟩
  · rw [h1, h2]; exact extends_refl _ _
  · rw [h1, h2]
    refine ⟨fun _ _ h => h, [(currentID s, loadPGCR s.calls.length (currentID s))], rfl, ?_⟩
    intro call hcall
    simp only [List.mem_singleton] at hcall
    rw [hcall]; exact hn
  · rw [h1, h2]
    refine ⟨?_, [(currentID s, loadPGCR s.calls.length (currentID s))], rfl, ?_⟩
    · intro id p hp
      by_cases hid : id = currentID s
      · rw [hid, hn] at hp; exact absurd hp (by simp)
      · rw [store_other hid]; exact hp
    · intro call hcall
      simp only [List.mem_singleton] at hcall
      rw [hcall]; exact hn

theorem filter_isFoundFor_nil {id : Int} {l : List (Int × LoadResult)}
    (h : ∀ r, (id, LoadResult.found r) ∉ l) : l.filter (isFoundFor id) = [] := by
  rw [List.filter_eq_nil_iff]
  rintro ⟨i, res⟩ hmem hf
  unfold isFoundFor at hf
  cases res with
  | found r =>
    simp only [decide_eq_true_eq] at hf
    subst hf
    exact h r hmem
  | absent => simp at hf
  | error => simp at hf

theorem iteration_fetchedOnce (loadPGCR : Loader) (needle : PGCRTimestamp) (s : SearchState)
    (h : FetchedOnce s.recordByID s.calls) :
    FetchedOnce (iteration loadPGCR needle s).state.recordByID
      (iteration loadPGCR needle s).state.calls := by
  obtain ⟨hin, hcount⟩ := h
  rcases iteration_state loadPGCR needle s with ⟨_, h1, h2⟩ | ⟨hn, h1, ⟨hnf, h2⟩ | ⟨r, hr, h2⟩⟩
  · rw [h1, h2]; exact ⟨hin, hcount⟩
  · rw [h1, h2]
    constructor
    · intro id r hmem
      rcases List.mem_cons.mp hmem with heq | hmem
      · simp only [Prod.mk.injEq] at heq
        exact absurd heq.2.symm (hnf r)
      · exact hin id r hmem
    · intro id
      have hnot : isFoundFor id (currentID s, loadPGCR s.calls.length (currentID s)) = false := by
        unfold isFoundFor
        cases hres : loadPGCR s.calls.length (currentID s) with
        | found r => exact absurd hres (hnf r)
        | absent => rfl
        | error => rfl
      rw [List.filter_cons_of_neg (by rw [hnot]; simp)]
      exact hcount id
  · rw [h1, h2]
    have hfresh : ∀ r1, (currentID s, LoadResult.found r1) ∉ s.calls := by
      intro r1 hmem
      have := hin _ _ hmem
      rw [hn] at this
      exact absurd this (by simp)
    constructor
    · intro id r1 hmem
      rcases List.mem_cons.mp hmem with heq | hmem
      · simp only [Prod.mk.injEq] at heq
        obtain ⟨hid, hres⟩ := heq
        rw [hr] at hres
        simp only [LoadResult.found.injEq] at hres
        rw [hid, hres]
        exact store_self _ _ _
      · have hid : id ≠ currentID s := by
          intro hid
          rw [hid] at hmem
          exact hfresh r1 hmem
        rw [store_other hid]
        exact hin id r1 hmem
    · intro id
      by_cases hid : currentID s = id
      · rw [← hid, List.filter_cons, filter_isFoundFor_nil hfresh]
        split <;> simp
      · have hnot : isFoundFor id (currentID s, loadPGCR s.calls.length (currentID s)) = false := by
          unfold isFoundFor
          rw [hr]
          simp [hid]
        rw [List.filter_cons_of_neg (by rw [hnot]; simp)]
        exact hcount id

/-- The loop as a whole extends the cache and the log, and keeps every found
record cached and fetched once. -/
theorem findIDLoop_extends (loadPGCR : Loader) (needle : PGCRTimestamp) :
    ∀ (n : Nat) (s : SearchState),
      Extends s.recordByID s.calls (findIDLoop loadPGCR needle n s).state.recordByID
        (findIDLoop loadPGCR needle n s).state.calls ∧
      (FetchedOnce s.recordByID s.calls →
        FetchedOnce (findIDLoop loadPGCR needle n s).state.recordByID
          (findIDLoop loadPGCR needle n s).state.calls) := by
  intro n
  induction n with
  | zero => intro s; exact ⟨extends_refl _ _, fun h => h⟩
  | succ n ih =>
    intro s
    have he := iteration_extends loadPGCR needle s
    have hf := iteration_fetchedOnce loadPGCR needle s
    unfold findIDLoop
    cases hit : iteration loadPGCR needle s with
    | running s1 =>
      rw [hit] at he hf
      simp only [Outcome.state] at he hf
      exact ⟨extends_trans he (ih s1).1, fun h => (ih s1).2 (hf h)⟩
    | returned r e s1 => rw [hit] at he hf; exact ⟨he, hf⟩
    | panicked s1 => rw [hit] at he hf; exact ⟨he, hf⟩

theorem session_extends (loadPGCR : Loader) :
    ∀ (runs : List (PGCRTimestamp × Nat)) (c : Cache) (l : List (Int × LoadResult)),
      Extends c l (session loadPGCR runs c l).1 (session loadPGCR runs c l).2 ∧
      (FetchedOnce c l →
        FetchedOnce (session loadPGCR runs c l).1 (session loadPGCR runs c l).2) := by
  intro runs
  induction runs with
  | nil => intro c l; exact ⟨extends_refl _ _, fun h => h⟩
  | cons run rest ih =>
    intro c l
    obtain ⟨needle, n⟩ := run
    have h1 := findIDLoop_extends loadPGCR needle n (entry c l)
    have h2 := ih (findID loadPGCR needle c l n).state.recordByID
      (findID loadPGCR needle c l n).state.calls
    unfold session
    exact ⟨extends_trans h1.1 h2.1, fun h => h2.2 (h1.2 h)⟩

theorem session_append (loadPGCR : Loader) :
    ∀ (runs later : List (PGCRTimestamp × Nat)) (c : Cache) (l : List (Int × LoadResult)),
      session loadPGCR (runs ++ later) c l =
        session loadPGCR later (session loadPGCR runs c l).1 (session loadPGCR runs c l).2 := by
  intro runs
  induction runs with
  | nil => intro later c l; rfl
  | cons run rest ih =>
    intro later c l
    obtain ⟨needle, n⟩ := run
    simp only [List.cons_append, session]
    exact ih later _ _

/-! ## Running `findID` again -/

theorem lookup_of_hit {loadPGCR : Loader} {s : SearchState} {p : Option PGCR}
    (h : s.recordByID (currentID s) = some p) : lookup loadPGCR s = .current p s := by
  unfold lookup
  rw [h]

theorem lookup_of_miss {loadPGCR : Loader} {s : SearchState}
    (h : s.recordByID (currentID s) = none) :
    lookup loadPGCR s =
      match loadPGCR s.calls.length (currentID s) with
      | .error => .failed (logged loadPGCR s)
      | .absent => .current none (logged loadPGCR s)
      | .found p => .current (some p) (logged loadPGCR s) := by
  unfold lookup
  rw [h]

theorem covers_refl (f : Int → LoadResult) (c : Cache) : Covers f c c :=
  fun _ => ⟨fun _ h => h, fun h => Or.inl h⟩

theorem covers_trans {f : Int → LoadResult} {c c1 c2 : Cache}
    (h1 : Covers f c c1) (h2 : Covers f c1 c2) : Covers f c c2 := by
  intro id
  refine ⟨fun p hp => (h2 id).1 p ((h1 id).1 p hp), fun hn => ?_⟩
  rcases (h1 id).2 hn with h | ⟨r, hr, h⟩
  · exact (h2 id).2 h
  · exact Or.inr ⟨r, hr, (h2 id).1 _ h⟩

theorem covers_store {f : Int → LoadResult} {c c1 : Cache} (h : Covers f c c1)
    (id : Int) (p : Option PGCR) : Covers f (c.store id p) (c1.store id p) := by
  intro k
  by_cases hk : k = id
  · subst hk
    rw [store_self, store_self]
    exact ⟨fun _ hp => hp, fun hn => absurd hn (by simp)⟩
  · rw [store_other hk, store_other hk]
    exact h k

theorem currentID_congr {s s1 : SearchState} (hb : s.bottom = s1.bottom)
    (ht : s.top = s1.top) : currentID s1 = currentID s ∧ difference s1 = difference s := by
  unfold currentID increment difference
  rw [hb, ht]
  exact ⟨rfl, rfl⟩

theorem examine_similar (f : Int → LoadResult) (needle : PGCRTimestamp)
    {s s1 : SearchState} (p : Option PGCR) (hb : s.bottom = s1.bottom) (ht : s.top = s1.top)
    (hc : Covers f s.recordByID s1.recordByID) :
    Similar f (examine needle s p) (examine needle s1 p) := by
  obtain ⟨hcur, hdiff⟩ := currentID_congr hb ht
  unfold examine
  rw [hcur, hdiff, ← hb, ← ht]
  cases p with
  | none => exact ⟨rfl, rfl, hc⟩
  | some rec =>
    simp only
    cases rec.period with
    | none => exact True.intro
    | some t =>
      simp only
      by_cases he : t.Equals needle = true
      · rw [if_pos he, if_pos he]
        exact ⟨rfl, rfl⟩
      · rw [if_neg he, if_neg he]
        by_cases hbf : t.Before needle = true
        · rw [if_pos hbf, if_pos hbf]
          by_cases h1 : s.bottom = currentID s ∨ difference s = 1
          · rw [if_pos h1, if_pos h1]
            exact ⟨rfl, rfl⟩
          · rw [if_neg h1, if_neg h1]
            exact ⟨rfl, rfl, covers_store hc _ _⟩
        · rw [if_neg hbf, if_neg hbf]
          by_cases h1 : s.top = currentID s ∨ difference s = 1
          · rw [if_pos h1, if_pos h1]
            exact ⟨rfl, rfl⟩
          · rw [if_neg h1, if_neg h1]
            exact ⟨rfl, rfl, covers_store hc _ _⟩

/-- Against a deterministic service, two loop states with the same interval
and caches related by `Covers` take the same step. -/
theorem iteration_similar (f : Int → LoadResult) (needle : PGCRTimestamp)
    {s s1 : SearchState} (hb : s.bottom = s1.bottom) (ht : s.top = s1.top)
    (hc : Covers f s.recordByID s1.recordByID) :
    Similar f (iteration (fun _ => f) needle s) (iteration (fun _ => f) needle s1) := by
  obtain ⟨hcur, _⟩ := currentID_congr hb ht
  have hcov := hc (currentID s)
  unfold iteration
  cases hp : s.recordByID (currentID s) with
  | some p =>
    have hp1 : s1.recordByID (currentID s1) = some p := by rw [hcur]; exact hcov.1 p hp
    rw [lookup_of_hit hp, lookup_of_hit hp1]
    exact examine_similar f needle p hb ht hc
  | none =>
    rw [lookup_of_miss hp]
    rcases hcov.2 hp with hn | ⟨r, hr, hn⟩
    · have hp1 : s1.recordByID (currentID s1) = none := by rw [hcur]; exact hn
      rw [lookup_of_miss hp1, hcur]
      cases f (currentID s) with
      | error => exact ⟨hb, ht, hc⟩
      | absent => exact examine_similar f needle none hb ht hc
      | found r => exact examine_similar f needle (some r) hb ht hc
    · have hp1 : s1.recordByID (currentID s1) = some (some r) := by rw [hcur]; exact hn
      rw [lookup_of_hit hp1]
      simp only [hr]
      exact examine_similar f needle (some r) hb ht hc

theorem findIDLoop_similar (f : Int → LoadResult) (needle : PGCRTimestamp) :
    ∀ (n : Nat) {s s1 : SearchState}, s.bottom = s1.bottom → s.top = s1.top →
      Covers f s.recordByID s1.recordByID →
      Similar f (findIDLoop (fun _ => f) needle n s) (findIDLoop (fun _ => f) needle n s1) := by
  intro n
  induction n with
  | zero => intro s s1 hb ht hc; exact ⟨hb, ht, hc⟩
  | succ n ih =>
    intro s s1 hb ht hc
    have hsim := iteration_similar f needle hb ht hc
    unfold findIDLoop
    cases h1 : iteration (fun _ => f) needle s <;>
      cases h2 : iteration (fun _ => f) needle s1 <;>
      rw [h1, h2] at hsim <;> simp only [Similar] at hsim ⊢
    · exact ih hsim.1 hsim.2.1 hsim.2.2
    · exact hsim

theorem similar_result {f : Int → LoadResult} {o1 o2 : Outcome} (h : Similar f o1 o2)
    {r : PGCR} {e : Bool} (h1 : o1.result = some (r, e)) : o2.result = some (r, e) := by
  cases o1 <;> cases o2 <;> simp only [Similar, Outcome.result] at h h1 ⊢
  · exact absurd h1 (by simp)
  · simp only [Option.some.injEq, Prod.mk.injEq] at h1 ⊢
    exact ⟨h.1 ▸ h1.1, h.2 ▸ h1.2⟩
  · exact absurd h1 (by simp)

theorem iteration_covers (f : Int → LoadResult) (needle : PGCRTimestamp) (s : SearchState) :
    Covers f s.recordByID (iteration (fun _ => f) needle s).state.recordByID := by
  rcases iteration_state (fun _ => f) needle s with
    ⟨_, _, h2⟩ | ⟨hn, _, ⟨_, h2⟩ | ⟨r, hr, h2⟩⟩
  · rw [h2]; exact covers_refl f _
  · rw [h2]; exact covers_refl f _
  · rw [h2]
    intro k
    by_cases hk : k = currentID s
    · subst hk
      rw [store_self]
      exact ⟨fun p hp => by rw [hn] at hp; exact absurd hp (by simp),
        fun _ => Or.inr ⟨r, hr, rfl⟩⟩
    · rw [store_other hk]
      exact ⟨fun _ hp => hp, fun h => Or.inl h⟩

theorem findIDLoop_covers (f : Int → LoadResult) (needle : PGCRTimestamp) :
    ∀ (n : Nat) (s : SearchState),
      Covers f s.recordByID (findIDLoop (fun _ => f) needle n s).state.recordByID := by
  intro n
  induction n with
  | zero => intro s; exact covers_refl f _
  | succ n ih =>
    intro s
    have hc := iteration_covers f needle s
    unfold findIDLoop
    cases hit : iteration (fun _ => f) needle s with
    | running s1 =>
      rw [hit] at hc
      exact covers_trans hc (ih s1)
    | returned r e s1 => rw [hit] at hc; exact hc
    | panicked s1 => rw [hit] at hc; exact hc

/-! ## A target past the newest record -/

theorem examine_of_before {needle : PGCRTimestamp} {s : SearchState} {r : PGCR}
    {t : PGCRTimestamp} (hp : r.period = some t) (hb : t.Before needle = true)
    (hn : ¬ (s.bottom = currentID s ∨ difference s = 1)) :
    examine needle s (some r) =
      .running { bottom := currentID s, top := s.top,
                 recordByID := s.recordByID.store (currentID s) (some r), calls := s.calls } := by
  have he : ¬ (t.Equals needle = true) := by
    unfold PGCRTimestamp.Before at hb
    unfold PGCRTimestamp.Equals
    simp only [decide_eq_true_eq] at hb ⊢
    omega
  unfold examine
  simp only [hp]
  rw [if_neg he, if_pos hb, if_neg hn]

/-- Below the gap the loop always goes on: a record earlier than the target
raises `bottom`, status 404 lowers `top`, unless `top` is the midpoint
already. -/
theorem iteration_belowGap {loadPGCR : Loader} {T : Int} {needle : PGCRTimestamp}
    (hrec : ∀ k i, 1 ≤ i → i ≤ T →
      ∃ r t, loadPGCR k i = .found r ∧ r.period = some t ∧ t.Before needle = true)
    (habs : ∀ k i, T < i → loadPGCR k i = .absent)
    {s : SearchState} (hs : BelowGap T needle s) :
    ∃ s1, iteration loadPGCR needle s = .running s1 ∧ BelowGap T needle s1 := by
  obtain ⟨hr, hbT, hTt, hcache⟩ := hs
  have hb := currentID_bounds hr
  have hd := difference_eq hr
  have hr1 := hr
  unfold InRange at hr1
  by_cases hcur : currentID s ≤ T
  · have hn : ¬ (s.bottom = currentID s ∨ difference s = 1) := by
      rw [hd]
      intro h
      rcases h with h | h
      · omega
      · have := hb.2.2.1.mpr h
        omega
    have hwide : s.top - s.bottom ≠ 1 := by
      intro h
      have := hb.2.2.1.mpr h
      omega
    have hnext : ∀ (r : PGCR) (t : PGCRTimestamp) (l : List (Int × LoadResult)),
        r.period = some t → t.Before needle = true →
        BelowGap T needle
          { bottom := currentID s, top := s.top,
            recordByID := s.recordByID.store (currentID s) (some r), calls := l } := by
      intro r t l hp hbf
      refine ⟨?_, hcur, hTt, ?_⟩
      · unfold InRange
        simp only
        omega
      · intro id p hid
        simp only at hid
        by_cases hk : id = currentID s
        · rw [hk, store_self] at hid
          simp only [Option.some.injEq] at hid
          rw [hk]
          exact ⟨hcur, r, t, hid.symm, hp, hbf⟩
        · rw [store_other hk] at hid
          exact hcache id p hid
    unfold iteration
    rcases lookup_cases loadPGCR s with ⟨p, hp, hl⟩ | ⟨_, ⟨he, _⟩ | ⟨ha, _⟩ | ⟨r, hf, hl⟩⟩
    · obtain ⟨_, r, t, hpr, hper, hbf⟩ := hcache _ _ hp
      subst hpr
      rw [hl]
      simp only
      rw [examine_of_before hper hbf hn]
      exact ⟨_, rfl, hnext r t _ hper hbf⟩
    · obtain ⟨r, t, hf, _⟩ := hrec s.calls.length (currentID s) (by omega) hcur
      rw [hf] at he
      exact absurd he (by simp)
    · obtain ⟨r, t, hf, _⟩ := hrec s.calls.length (currentID s) (by omega) hcur
      rw [hf] at ha
      exact absurd ha (by simp)
    · obtain ⟨r1, t, hf1, hper, hbf⟩ := hrec s.calls.length (currentID s) (by omega) hcur
      rw [hf] at hf1
      simp only [LoadResult.found.injEq] at hf1
      subst hf1
      rw [hl]
      simp only
      rw [@examine_of_before needle (logged loadPGCR s) r t hper hbf hn]
      exact ⟨_, rfl, hnext r t _ hper hbf⟩
  · have hmiss : s.recordByID (currentID s) = none := by
      cases hc : s.recordByID (currentID s) with
      | none => rfl
      | some p => exact absurd (hcache _ _ hc).1 hcur
    have hab := habs s.calls.length (currentID s) (by omega)
    unfold iteration
    rw [lookup_of_miss hmiss]
    simp only [hab, examine, currentID_logged]
    refine ⟨_, rfl, ?_, hbT, ?_, hcache⟩
    · unfold InRange
      simp only [logged]
      omega
    · simp only
      omega

theorem findIDLoop_belowGap {loadPGCR : Loader} {T : Int} {needle : PGCRTimestamp}
    (hrec : ∀ k i, 1 ≤ i → i ≤ T →
      ∃ r t, loadPGCR k i = .found r ∧ r.period = some t ∧ t.Before needle = true)
    (habs : ∀ k i, T < i → loadPGCR k i = .absent) :
    ∀ (n : Nat) (s : SearchState), BelowGap T needle s →
      ∃ s1, findIDLoop loadPGCR needle n s = .running s1 ∧ BelowGap T needle s1 := by
  intro n
  induction n with
  | zero => intro s hs; exact ⟨s, rfl, hs⟩
  | succ n ih =>
    intro s hs
    obtain ⟨s1, hit, hs1⟩ := iteration_belowGap hrec habs hs
    unfold findIDLoop
    rw [hit]
    exact ih s1 hs1

/-! ## The exact flag -/

theorem examine_result {needle : PGCRTimestamp} {s : SearchState} {p : Option PGCR}
    {rec : PGCR} {exact : Bool} (h : (examine needle s p).result = some (rec, exact)) :
    p = some rec ∧ (exact = true ↔ ∃ t, rec.period = some t ∧ t.Equals needle = true) := by
  unfold examine at h
  cases p with
  | none => simp [Outcome.result] at h
  | some r =>
    simp only at h
    cases hp : r.period with
    | none => rw [hp] at h; simp [Outcome.result] at h
    | some t =>
      rw [hp] at h
      simp only at h
      by_cases he : t.Equals needle = true
      · rw [if_pos he] at h
        simp only [Outcome.result, Option.some.injEq, Prod.mk.injEq] at h
        obtain ⟨h1, h2⟩ := h
        subst h1 h2
        exact ⟨rfl, fun _ => ⟨t, hp, he⟩, fun _ => rfl⟩
      · rw [if_neg he] at h
        have hflag : rec = r ∧ exact = false := by
          split at h <;> split at h <;>
            simp [Outcome.result] at h <;> exact ⟨h.1.symm, h.2⟩
        obtain ⟨h1, h2⟩ := hflag
        subst h1 h2
        refine ⟨rfl, fun hf => absurd hf (by simp), ?_⟩
        rintro ⟨t1, ht1, he1⟩
        rw [hp] at ht1
        cases ht1
        exact absurd he1 he

theorem iteration_result {loadPGCR : Loader} {needle : PGCRTimestamp} {s : SearchState}
    {rec : PGCR} {exact : Bool}
    (h : (iteration loadPGCR needle s).result = some (rec, exact)) :
    exact = true ↔ ∃ t, rec.period = some t ∧ t.Equals needle = true := by
  unfold iteration at h
  cases hl : lookup loadPGCR s with
  | failed s1 => rw [hl] at h; simp [Outcome.result] at h
  | current p s1 => rw [hl] at h; exact (examine_result h).2

theorem findIDLoop_result {loadPGCR : Loader} {needle : PGCRTimestamp} {rec : PGCR}
    {exact : Bool} :
    ∀ (n : Nat) (s : SearchState),
      (findIDLoop loadPGCR needle n s).result = some (rec, exact) →
      (exact = true ↔ ∃ t, rec.period = some t ∧ t.Equals needle = true) := by
  intro n
  induction n with
  | zero => intro s h; simp [findIDLoop, Outcome.result] at h
  | succ n ih =>
    intro s h
    unfold findIDLoop at h
    cases hit : iteration loadPGCR needle s with
    | running s2 => rw [hit] at h; exact ih s2 h
    | returned r e s2 =>
      rw [hit] at h
      exact iteration_result (by rw [hit]; exact h)
    | panicked s2 => rw [hit] at h; simp [Outcome.result] at h

/-! ## The claims -/

/-- C1, at an input where the code does not do what the claim says: records
`1..1000` with `t(i) = baseTime + i minutes`, nothing above, the target
`t(1)`, the timestamp of record `1`, and an empty cache. `findID` returns
record `2` with `exact = false` in its 63rd iteration: identifier `1` is never
probed. -/
theorem exact_match_of_first_record_missed :
    (fixtureRecord 1).period = some (fixtureTime 1) ∧
      (findID (fixtureService 1000) (fixtureTime 1) emptyCache [] 63).result
        = some (fixtureRecord 2, false) :=
  ⟨rfl, by decide⟩

/-- C2, at an input where the code does not do what the claim says: records
`1..1000` with `t(i) = baseTime + i minutes`, nothing above, a target `30`
seconds before `t(1)`, and an empty cache. Every record is later than the
target, so that record `1` is the one next to it, and `findID` returns
record `2`. -/
theorem closest_match_before_first_record :
    (∀ i, 1 ≤ i → earlyTarget.Before (fixtureTime i) = true) ∧
      (findID (fixtureService 1000) earlyTarget emptyCache [] 63).result
        = some (fixtureRecord 2, false) := by
  refine ⟨?_, by decide⟩
  intro i hi
  unfold PGCRTimestamp.Before earlyTarget fixtureTime
  simp only [decide_eq_true_eq]
  omega

/-- C3, at the input of the scenario: records `1..1000` with
`t(i) = baseTime + i minutes`, status 404 above, the target
`t(1000) + 1 hour`, and an empty cache. `findID` never leaves its loop:
whatever the number `n` of iterations, the loop is still going after them. -/
theorem gap_scenario_never_returns (n : Nat) :
    (findID (fixtureService 1000) lateTarget emptyCache [] n).isRunning = true := by
  have hrec : ∀ (k : Nat) (i : Int), 1 ≤ i → i ≤ 1000 →
      ∃ r t, fixtureService 1000 k i = .found r ∧ r.period = some t ∧
        t.Before lateTarget = true := by
    intro k i h1 h2
    refine ⟨fixtureRecord i, fixtureTime i, ?_, rfl, ?_⟩
    · unfold fixtureService fixtureAnswer
      rw [if_pos ⟨h1, h2⟩]
    · unfold PGCRTimestamp.Before lateTarget fixtureTime
      simp only [decide_eq_true_eq]
      omega
  have habs : ∀ (k : Nat) (i : Int), 1000 < i → fixtureService 1000 k i = .absent := by
    intro k i h
    unfold fixtureService fixtureAnswer
    rw [if_neg (by omega)]
  have hentry : BelowGap 1000 lateTarget (entry emptyCache []) := by
    refine ⟨inRange_entry _ _, ?_, ?_, ?_⟩
    · simp [entry]
    · simp [entry, maxInt64]
    · intro id p h
      simp [entry, emptyCache] at h
  obtain ⟨s1, h, _⟩ := findIDLoop_belowGap hrec habs n (entry emptyCache []) hentry
  unfold findID
  rw [h]
  rfl

/-- C6: whenever `findID` returns `(record, exact)`, `exact` is true if and
only if the timestamp of `record` equals the target (`PGCRTimestamp.Equals`);
and in any loop state, whatever the interval, an examined record whose
timestamp equals the target makes the iteration return `(record, true)`. -/
theorem exact_flag_is_truthful (loadPGCR : Loader) (needle : PGCRTimestamp)
    (recordByID : Cache) (calls : List (Int × LoadResult)) (n : Nat)
    (rec : PGCR) (exact : Bool)
    (h : (findID loadPGCR needle recordByID calls n).result = some (rec, exact)) :
    (exact = true ↔ ∃ t, rec.period = some t ∧ t.Equals needle = true) ∧
    (∀ (s s1 : SearchState) (p : PGCR) (t : PGCRTimestamp),
      lookup loadPGCR s = .current (some p) s1 → p.period = some t →
      t.Equals needle = true →
      (iteration loadPGCR needle s).result = some (p, true)) := by
  refine ⟨findIDLoop_result n _ h, ?_⟩
  intro s s1 p t hl hp he
  unfold iteration
  rw [hl]
  simp [examine, hp, he, Outcome.result]

theorem exact_flag_is_truthful_witness :
    (findID (fixtureService 1000) (fixtureTime 500) emptyCache [] 63).result
        = some (fixtureRecord 500, true) ∧
      ((true = true ↔
          ∃ t, (fixtureRecord 500).period = some t ∧ t.Equals (fixtureTime 500) = true) ∧
       (∀ (s s1 : SearchState) (p : PGCR) (t : PGCRTimestamp),
          lookup (fixtureService 1000) s = .current (some p) s1 → p.period = some t →
          t.Equals (fixtureTime 500) = true →
          (iteration (fixtureService 1000) (fixtureTime 500) s).result = some (p, true))) :=
  ⟨by decide,
    exact_flag_is_truthful (fixtureService 1000) (fixtureTime 500) emptyCache [] 63
      (fixtureRecord 500) true (by decide)⟩

/-- C8: in any loop state whose midpoint is not in the cache, if `loadPGCR`
returns an error for that midpoint then the iteration goes on to the next one
with `bottom`, `top` and the cache unchanged (only the log of invocations
grows), and the next iteration probes the same midpoint. -/
theorem error_leaves_search_state (loadPGCR : Loader) (needle : PGCRTimestamp)
    (s : SearchState) (hmiss : s.recordByID (currentID s) = none)
    (herr : loadPGCR s.calls.length (currentID s) = .error) :
    iteration loadPGCR needle s =
        .running { s with calls := (currentID s, LoadResult.error) :: s.calls } ∧
      currentID { s with calls := (currentID s, LoadResult.error) :: s.calls } = currentID s := by
  refine ⟨?_, rfl⟩
  unfold iteration lookup
  rw [hmiss]
  simp only [herr, logged]

theorem error_leaves_search_state_witness :
    (entry emptyCache []).recordByID (currentID (entry emptyCache [])) = none ∧
      failingService (entry emptyCache []).calls.length (currentID (entry emptyCache []))
        = .error ∧
      iteration failingService (fixtureTime 500) (entry emptyCache []) =
        .running { entry emptyCache [] with
          calls := (currentID (entry emptyCache []), LoadResult.error) :: [] } ∧
      currentID { entry emptyCache [] with
          calls := (currentID (entry emptyCache []), LoadResult.error) :: [] }
        = currentID (entry emptyCache []) :=
  ⟨rfl, rfl, error_leaves_search_state failingService (fixtureTime 500) (entry emptyCache [])
    rfl rfl⟩

/-- C9: in every loop state that `findID` reaches from `bottom = 1`,
`top = math.MaxInt64`, whatever the service, the cache and the target,
`1 ≤ bottom < top ≤ MaxInt64`, the probed identifier lies in
`(bottom, top]` and is `top` exactly when `top - bottom = 1`; `top - bottom`
and `bottom + increment` are computed without overflow; `bottom == currentID`
is false and identifier `1` is not probed. -/
theorem findID_interval_invariant (loadPGCR : Loader) (needle : PGCRTimestamp)
    (recordByID : Cache) (calls : List (Int × LoadResult)) (n : Nat) (s : SearchState)
    (h : findID loadPGCR needle recordByID calls n = .running s) :
    (1 ≤ s.bottom ∧ s.bottom < s.top ∧ s.top ≤ maxInt64) ∧
    (s.bottom < currentID s ∧ currentID s ≤ s.top) ∧
    (currentID s = s.top ↔ s.top - s.bottom = 1) ∧
    (difference s = s.top - s.bottom ∧
      -9223372036854775808 ≤ s.top - s.bottom ∧ s.top - s.bottom ≤ maxInt64) ∧
    (currentID s = s.bottom + increment s ∧
      -9223372036854775808 ≤ s.bottom + increment s ∧ s.bottom + increment s ≤ maxInt64) ∧
    s.bottom ≠ currentID s ∧ currentID s ≠ 1 := by
  have hs : InRange s := findIDLoop_inRange n (inRange_entry recordByID calls) h
  have hb := currentID_bounds hs
  have hc := currentID_eq hs
  have hd := difference_eq hs
  refine ⟨hs, ⟨hb.1, hb.2.1⟩, hb.2.2.1, ⟨hd, ?_, ?_⟩, ⟨hc, ?_, ?_⟩, ?_, ?_⟩ <;>
    unfold InRange maxInt64 at hs <;> try unfold maxInt64
  all_goals omega

theorem findID_interval_invariant_witness :
    findID (fixtureService 1000) (fixtureTime 500) emptyCache [] 2 = .running scenarioState ∧
    ((1 ≤ scenarioState.bottom ∧ scenarioState.bottom < scenarioState.top ∧
        scenarioState.top ≤ maxInt64) ∧
    (scenarioState.bottom < currentID scenarioState ∧
        currentID scenarioState ≤ scenarioState.top) ∧
    (currentID scenarioState = scenarioState.top ↔
        scenarioState.top - scenarioState.bottom = 1) ∧
    (difference scenarioState = scenarioState.top - scenarioState.bottom ∧
      -9223372036854775808 ≤ scenarioState.top - scenarioState.bottom ∧
      scenarioState.top - scenarioState.bottom ≤ maxInt64) ∧
    (currentID scenarioState = scenarioState.bottom + increment scenarioState ∧
      -9223372036854775808 ≤ scenarioState.bottom + increment scenarioState ∧
      scenarioState.bottom + increment scenarioState ≤ maxInt64) ∧
    scenarioState.bottom ≠ currentID scenarioState ∧ currentID scenarioState ≠ 1) :=
  ⟨rfl, findID_interval_invariant (fixtureService 1000) (fixtureTime 500) emptyCache [] 2
    scenarioState rfl⟩

/-- C7, with the bound that holds: for every service that never returns an
error, every cache and every target, among any number `n` of iterations of
the loop of `findID` at most `64` have their probed identifier resolve to a
record. (The bound holds for services that return errors as well: the
hypothesis of the claim is not used.) -/
theorem resolutions_at_most_64 (loadPGCR : Loader)
    (_hnoerr : ∀ k i, loadPGCR k i ≠ .error) (needle : PGCRTimestamp)
    (recordByID : Cache) (calls : List (Int × LoadResult)) (n : Nat) :
    resolutions loadPGCR needle n (entry recordByID calls) ≤ 64 := by
  refine resolutions_le n 63 (entry recordByID calls) (inRange_entry _ _) ?_
  unfold entry maxInt64
  norm_num

theorem resolutions_at_most_64_witness :
    (∀ k i, constantService k i ≠ .error) ∧
      resolutions constantService { instant := 1 } 64 (entry emptyCache []) ≤ 64 :=
  ⟨fun _ _ => by simp [constantService],
    resolutions_at_most_64 constantService (fun _ _ => by simp [constantService])
      { instant := 1 } emptyCache [] 64⟩

set_option maxRecDepth 100000 in
/-- C7 as stated fails: the service that has a record of instant `0` for
every identifier never returns an error, and with the target at instant `1`
and an empty cache each of the first `64` iterations of `findID` resolves its
midpoint to a record, one more than `63`. -/
theorem resolutions_exceed_63 :
    (∀ k i, constantService k i ≠ .error) ∧
      resolutions constantService { instant := 1 } 64 (entry emptyCache []) = 64 :=
  ⟨fun _ _ => by simp [constantService], by decide⟩

/-- C10: with a record behind every identifier of `1..MaxInt64` (whatever the
timestamps) and a cache holding only records, `findID` has left its loop
after at most `64` iterations, and has returned a pair when no record has a
nil `Period`; in every loop state reached, an iteration that goes on leaves a
width `top - bottom` of at most half the width before, rounded up, and an
iteration at width `1` does not go on. -/
theorem findID_terminates_without_gaps (loadPGCR : Loader)
    (hfound : ∀ k i, 1 ≤ i → i ≤ maxInt64 → ∃ r, loadPGCR k i = .found r)
    (recordByID : Cache) (hcache : OnlyRecords recordByID)
    (calls : List (Int × LoadResult)) (needle : PGCRTimestamp) :
    (findID loadPGCR needle recordByID calls 64).isRunning = false ∧
    ((∀ k i r, loadPGCR k i = .found r → r.period ≠ none) → HasPeriods recordByID →
      (findID loadPGCR needle recordByID calls 64).result.isSome = true) ∧
    (∀ (n : Nat) (s s1 : SearchState),
      findID loadPGCR needle recordByID calls n = .running s →
      iteration loadPGCR needle s = .running s1 →
      s1.top - s1.bottom ≤ (s.top - s.bottom + 1) / 2) ∧
    (∀ (n : Nat) (s : SearchState),
      findID loadPGCR needle recordByID calls n = .running s →
      s.top - s.bottom = 1 → (iteration loadPGCR needle s).isRunning = false) := by
  have hleft : (findID loadPGCR needle recordByID calls 64).isRunning = false := by
    refine findIDLoop_leaves hfound 63 64 (entry recordByID calls) (inRange_entry _ _)
      hcache ?_ (by omega)
    unfold entry maxInt64
    norm_num
  have hstep : ∀ (n : Nat) (s s1 : SearchState),
      findID loadPGCR needle recordByID calls n = .running s →
      iteration loadPGCR needle s = .running s1 →
      s.top - s.bottom ≠ 1 ∧ s1.top - s1.bottom ≤ (s.top - s.bottom + 1) / 2 := by
    intro n s s1 hn hit
    have hs : InRange s := findIDLoop_inRange n (inRange_entry recordByID calls) hn
    have hc : OnlyRecords s.recordByID := findIDLoop_onlyRecords n hcache hn
    exact (inRange_iteration hs hit).2.2 (resolves_of_found hfound hs hc)
  refine ⟨hleft, ?_, fun n s s1 hn hit => (hstep n s s1 hn hit).2, ?_⟩
  · intro hload hper
    exact result_isSome_of_left hleft
      (fun s => findIDLoop_not_panicked hload 64 _ s hper)
  · intro n s hn hw
    cases hit : iteration loadPGCR needle s with
    | running s1 => exact absurd hw (hstep n s s1 hn hit).1
    | returned r e s1 => rfl
    | panicked s1 => rfl

theorem findID_terminates_without_gaps_witness :
    (∀ k i, 1 ≤ i → i ≤ maxInt64 → ∃ r, constantService k i = .found r) ∧
      OnlyRecords emptyCache ∧
      (findID constantService { instant := 1 } emptyCache [] 64).isRunning = false ∧
      (findID constantService { instant := 1 } emptyCache [] 63).isRunning = true :=
  ⟨fun _ _ _ _ => ⟨_, rfl⟩, fun _ _ h => by simp [emptyCache] at h,
    (findID_terminates_without_gaps constantService (fun _ _ _ _ => ⟨_, rfl⟩) emptyCache
      (fun _ _ h => by simp [emptyCache] at h) [] { instant := 1 }).1,
    by decide⟩

/-- C4: over any sequence of `findID` calls (any targets, each followed for
any number of iterations) that share `recordByID`, started with no invocation
of `loadPGCR` logged: a binding of the cache at some moment is there, with
the same record, at every later moment, and none of the invocations of
`loadPGCR` made in between is for its identifier; no identifier has two
invocations that found a record; a found record is in the cache; and a lookup
of an identifier in the cache is answered from the cache, without an
invocation. -/
theorem fetched_at_most_once (loadPGCR : Loader) (recordByID : Cache)
    (earlier later : List (PGCRTimestamp × Nat)) :
    (∃ newer,
      (session loadPGCR (earlier ++ later) recordByID []).2 =
        newer ++ (session loadPGCR earlier recordByID []).2 ∧
      ∀ id p, (session loadPGCR earlier recordByID []).1 id = some p →
        (session loadPGCR (earlier ++ later) recordByID []).1 id = some p ∧
        ∀ res, (id, res) ∉ newer) ∧
    (∀ id, ((session loadPGCR (earlier ++ later) recordByID []).2.filter
      (isFoundFor id)).length ≤ 1) ∧
    (∀ id r, (id, LoadResult.found r) ∈ (session loadPGCR (earlier ++ later) recordByID []).2 →
      (session loadPGCR (earlier ++ later) recordByID []).1 id = some (some r)) ∧
    (∀ (s : SearchState) (p : Option PGCR), s.recordByID (currentID s) = some p →
      lookup loadPGCR s = .current p s) := by
  have hinit : FetchedOnce recordByID [] :=
    ⟨fun _ _ h => absurd h (by simp), fun _ => by simp⟩
  obtain ⟨hin, hcount⟩ := (session_extends loadPGCR (earlier ++ later) recordByID []).2 hinit
  obtain ⟨hkeep, newer, hlog, hfresh⟩ :=
    (session_extends loadPGCR later (session loadPGCR earlier recordByID []).1
      (session loadPGCR earlier recordByID []).2).1
  rw [← session_append] at hkeep hlog
  refine ⟨⟨newer, hlog, fun id p hp => ⟨hkeep id p hp, fun res hmem => ?_⟩⟩, hcount, hin,
    fun s p hp => lookup_of_hit hp⟩
  have := hfresh (id, res) hmem
  rw [hp] at this
  exact absurd this (by simp)

/-- C5: against a deterministic service, if `findID(target)` returns `(r, e)`
within `n` iterations then `findID(target)` run again on the cache (and log)
that the first run left returns the same `(r, e)`, within `n` iterations. -/
theorem findID_idempotent (f : Int → LoadResult) (needle : PGCRTimestamp)
    (recordByID : Cache) (calls : List (Int × LoadResult)) (n : Nat) (r : PGCR) (e : Bool)
    (h : (findID (fun _ => f) needle recordByID calls n).result = some (r, e)) :
    (findID (fun _ => f) needle
        (findID (fun _ => f) needle recordByID calls n).state.recordByID
        (findID (fun _ => f) needle recordByID calls n).state.calls n).result
      = some (r, e) := by
  have hc := findIDLoop_covers f needle n (entry recordByID calls)
  have hsim := @findIDLoop_similar f needle n (entry recordByID calls)
    (entry (findID (fun _ => f) needle recordByID calls n).state.recordByID
      (findID (fun _ => f) needle recordByID calls n).state.calls) rfl rfl hc
  exact similar_result hsim h

theorem findID_idempotent_witness :
    (findID (fun _ => fixtureAnswer 1000) (fixtureTime 500) emptyCache [] 63).result
        = some (fixtureRecord 500, true) ∧
      (findID (fun _ => fixtureAnswer 1000) (fixtureTime 500)
        (findID (fun _ => fixtureAnswer 1000) (fixtureTime 500) emptyCache [] 63).state.recordByID
        (findID (fun _ => fixtureAnswer 1000) (fixtureTime 500) emptyCache [] 63).state.calls
        63).result = some (fixtureRecord 500, true) :=
  ⟨by decide,
    findID_idempotent (fixtureAnswer 1000) (fixtureTime 500) emptyCache [] 63
      (fixtureRecord 500) true (by decide)⟩

end PGCRFind
